import Mathlib

/-!
Verification of the MrMustard TF-backend core against its specification.

The definitions below shallowly embed the Python source:
* `mrmustard/_backends/tfbackend.py` (circuit, optimizer, gate and math backends)
* `mrmustard/plugins/trainplugin.py` (parameter extraction and manifold updates)

Machine floating-point arithmetic is idealised as real/complex arithmetic;
Python exceptions are embedded as an explicit error monad (`Except PyError`).
Helper kernels living in `mrmustard._backends.utils` (`J`, `Xmat`,
`fill_amplitudes`) are not part of the sources and are modelled from the
specification text, as flagged in their doc comments.
-/

namespace MrMustard

open Matrix

/-- Python exceptions that the embedded code can raise. -/
inductive PyError where
  | indexError : PyError
  | notImplementedError : PyError
  | invalidArgument : PyError
deriving DecidableEq

/-! ## Gate primitive library (`TFGateBackend`, tfbackend.py lines 242-262) -/

/-- `TFGateBackend.loss_X`: `D = sqrt(transmissivity); diag(concat([D, D]))`.
The doubled index axis `Fin n ⊕ Fin n` stands for the concatenation of the
two `n`-blocks of the `2n`-dimensional phase space. -/
noncomputable def loss_X {n : ℕ} (transmissivity : Fin n → ℝ) :
    Matrix (Fin n ⊕ Fin n) (Fin n ⊕ Fin n) ℝ :=
  let D : Fin n → ℝ := fun i => Real.sqrt (transmissivity i)
  Matrix.diagonal (Sum.elim D D)

/-- `TFGateBackend.loss_Y`: `D = sqrt((1-transmissivity)*hbar/2); diag(concat([D, D]))`. -/
noncomputable def loss_Y {n : ℕ} (transmissivity : Fin n → ℝ) (hbar : ℝ) :
    Matrix (Fin n ⊕ Fin n) (Fin n ⊕ Fin n) ℝ :=
  let D : Fin n → ℝ := fun i => Real.sqrt ((1 - transmissivity i) * hbar / 2)
  Matrix.diagonal (Sum.elim D D)

/-- `TFGateBackend.thermal_X`: the body is a bare `raise NotImplementedError`. -/
def thermal_X {n : ℕ} (_nbar : Fin n → ℝ) (_hbar : ℝ) :
    Except PyError (Matrix (Fin n ⊕ Fin n) (Fin n ⊕ Fin n) ℝ) :=
  Except.error PyError.notImplementedError

/-- `TFGateBackend.thermal_Y`: the body is a bare `raise NotImplementedError`. -/
def thermal_Y {n : ℕ} (_nbar : Fin n → ℝ) (_hbar : ℝ) :
    Except PyError (Matrix (Fin n ⊕ Fin n) (Fin n ⊕ Fin n) ℝ) :=
  Except.error PyError.notImplementedError

/-! ## Parameter extraction and deduplication
(`TrainPlugin.extract_parameters`, trainplugin.py lines 74-91) -/

/-- A trainable parameter as seen by the optimizer driver: `pid` is the
storage identity used as deduplication key (the value `hash_tensor` /
`.ref()` returns), `val` is the numeric content it happens to hold. -/
structure Param where
  pid : ℕ
  val : ℚ
deriving DecidableEq

/-- Inner loop of `extract_parameters`: walk the parameters of one item and
append each one whose key is not yet in the dictionary (Python dicts keep
insertion order, embedded here as an accumulating list). -/
def insertParams (acc : List Param) : List Param → List Param
  | [] => acc
  | p :: ps =>
      if p.pid ∈ acc.map Param.pid then insertParams acc ps
      else insertParams (acc ++ [p]) ps

/-- `TrainPlugin.extract_parameters`: fold `insertParams` over the items'
parameter lists, returning `params_dict.values()` in insertion order. -/
def extract_parameters (items : List (List Param)) : List Param :=
  items.foldl insertParams []

theorem insertParams_map_pid_nodup (acc : List Param) (ps : List Param)
    (h : (acc.map Param.pid).Nodup) :
    ((insertParams acc ps).map Param.pid).Nodup := by
  induction ps generalizing acc with
  | nil => simpa [insertParams] using h
  | cons p ps ih =>
      by_cases hp : p.pid ∈ acc.map Param.pid
      · simpa [insertParams, hp] using ih acc h
      · have hdisj : ∀ q ∈ acc, ¬ q.pid = p.pid := by
          intro q hq hqe
          exact hp (List.mem_map.mpr ⟨q, hq, hqe⟩)
        have : ((acc ++ [p]).map Param.pid).Nodup := by
          simp only [List.map_append, List.map_cons, List.map_nil,
            List.nodup_append, List.nodup_cons, List.nodup_nil]
          refine ⟨h, by simp, ?_⟩
          intro x hx
          rcases List.mem_map.mp hx with ⟨q, hq, rfl⟩
          simp only [List.mem_singleton]
          exact fun hc => hdisj q hq hc
        simpa [insertParams, hp] using ih (acc ++ [p]) this

theorem mem_insertParams_map_pid (acc : List Param) (ps : List Param) (x : ℕ) :
    x ∈ (insertParams acc ps).map Param.pid ↔
      x ∈ acc.map Param.pid ∨ x ∈ ps.map Param.pid := by
  induction ps generalizing acc with
  | nil => simp [insertParams]
  | cons p ps ih =>
      by_cases hp : p.pid ∈ acc.map Param.pid
      · rw [insertParams, if_pos hp, ih]
        constructor
        · rintro (h | h)
          · exact Or.inl h
          · exact Or.inr (by simp [h])
        · rintro (h | h)
          · exact Or.inl h
          · rcases List.mem_map.mp h with ⟨q, hq, hqx⟩
            rcases List.mem_cons.mp hq with rfl | hq2
            · exact Or.inl (hqx ▸ hp)
            · exact Or.inr (List.mem_map.mpr ⟨q, hq2, hqx⟩)
      · rw [insertParams, if_neg hp, ih]
        simp only [List.map_append, List.map_cons, List.map_nil,
          List.mem_append, List.mem_cons, List.mem_singleton, List.mem_map]
        constructor
        · rintro (h | h)
          · rcases h with h | h
            · exact Or.inl h
            · simp at h
              exact Or.inr (Or.inl h)
          · exact Or.inr (Or.inr h)
        · rintro (h | h | h)
          · exact Or.inl (Or.inl h)
          · exact Or.inl (Or.inr (by simp [h]))
          · exact Or.inr h

theorem foldl_insertParams_nodup (items : List (List Param)) (acc : List Param)
    (h : (acc.map Param.pid).Nodup) :
    (((items.foldl insertParams acc)).map Param.pid).Nodup := by
  induction items generalizing acc with
  | nil => simpa using h
  | cons l ls ih =>
      simpa [List.foldl_cons] using ih (insertParams acc l) (insertParams_map_pid_nodup acc l h)

theorem mem_foldl_insertParams (items : List (List Param)) (acc : List Param) (x : ℕ) :
    x ∈ ((items.foldl insertParams acc)).map Param.pid ↔
      x ∈ acc.map Param.pid ∨ x ∈ (items.flatten).map Param.pid := by
  induction items generalizing acc with
  | nil => simp
  | cons l ls ih =>
      rw [List.foldl_cons, ih, mem_insertParams_map_pid]
      simp [or_assoc]

/-- C7. Parameter collection deduplicates by storage identity: every collected
list has pairwise distinct `pid`s, a `pid` is collected iff some circuit
element carries it, two parameters with equal values but distinct identities
are both kept, and re-registering an already-seen parameter object under an
extra circuit element leaves the collected list unchanged. -/
theorem extract_parameters_dedup (items : List (List Param)) :
    ((extract_parameters items).map Param.pid).Nodup ∧
    (∀ x : ℕ, x ∈ (extract_parameters items).map Param.pid ↔
       x ∈ (items.flatten).map Param.pid) ∧
    (∀ p q : Param, p.pid ≠ q.pid → p.val = q.val →
       extract_parameters [[p], [q]] = [p, q]) ∧
    (∀ p : Param, p.pid ∈ (items.flatten).map Param.pid →
       extract_parameters (items ++ [[p]]) = extract_parameters items) := by
  refine ⟨foldl_insertParams_nodup items [] (by simp), ?_, ?_, ?_⟩
  · intro x
    simpa using mem_foldl_insertParams items [] x
  · intro p q hne hval
    simp [extract_parameters, insertParams, Ne.symm hne]
  · intro p hp
    have hmem : p.pid ∈ (items.foldl insertParams []).map Param.pid := by
      rw [mem_foldl_insertParams]
      exact Or.inr hp
    simp only [extract_parameters, List.foldl_append, List.foldl_cons, List.foldl_nil]
    rw [insertParams, if_pos hmem, insertParams]

/-- Witness for C7 at concrete inputs: two equal-valued parameters with
distinct storage identities are both collected, and registering the same
parameter object a second time does not change the collected list. -/
theorem extract_parameters_dedup_witness :
    ((⟨0, 5⟩ : Param).pid ≠ (⟨1, 5⟩ : Param).pid ∧ (⟨0, 5⟩ : Param).val = (⟨1, 5⟩ : Param).val ∧
       extract_parameters [[⟨0, 5⟩], [⟨1, 5⟩]] = [⟨0, 5⟩, ⟨1, 5⟩]) ∧
    ((⟨0, 5⟩ : Param).pid ∈ ([[(⟨0, 5⟩ : Param)]].flatten).map Param.pid ∧
       extract_parameters ([[⟨0, 5⟩]] ++ [[⟨0, 5⟩]]) = extract_parameters [[⟨0, 5⟩]]) :=
  ⟨⟨by decide, by decide,
      (extract_parameters_dedup [[⟨0, 5⟩], [⟨1, 5⟩]]).2.2.1 ⟨0, 5⟩ ⟨1, 5⟩ (by decide) (by decide)⟩,
   ⟨by decide,
      (extract_parameters_dedup [[⟨0, 5⟩]]).2.2.2 ⟨0, 5⟩ (by decide)⟩⟩

/-- C9. The thermal-channel primitives are a permanent capability gap: for
every input they fail with the unsupported-operation error
(`NotImplementedError`) and never return a matrix. -/
theorem thermal_channel_unsupported :
    ∀ (n : ℕ) (nbar : Fin n → ℝ) (hbar : ℝ),
      thermal_X nbar hbar = Except.error PyError.notImplementedError ∧
      thermal_Y nbar hbar = Except.error PyError.notImplementedError := by
  intro n nbar hbar
  exact ⟨rfl, rfl⟩

/-- C10. At full transmissivity the lossy channel is trivial: `loss_X` on the
all-ones vector is the identity, `loss_Y` is the zero matrix, and the channel
`X·Σ·Xᵀ + Y` fixes every covariance matrix. -/
theorem loss_channel_trivial_at_full_transmissivity {n : ℕ} (hbar : ℝ)
    (_h : 0 < hbar) :
    loss_X (fun _ : Fin n => (1 : ℝ)) = 1 ∧
    loss_Y (fun _ : Fin n => (1 : ℝ)) hbar = 0 ∧
    ∀ Scov : Matrix (Fin n ⊕ Fin n) (Fin n ⊕ Fin n) ℝ,
      loss_X (fun _ => (1 : ℝ)) * Scov * (loss_X (fun _ => (1 : ℝ)))ᵀ
        + loss_Y (fun _ => (1 : ℝ)) hbar = Scov := by
  have hX : loss_X (fun _ : Fin n => (1 : ℝ)) = 1 := by
    rw [loss_X]
    have : (Sum.elim (fun _ : Fin n => Real.sqrt 1) fun _ : Fin n => Real.sqrt 1)
        = fun _ : Fin n ⊕ Fin n => (1 : ℝ) := by
      funext i; cases i <;> simp [Real.sqrt_one]
    rw [this, Matrix.diagonal_one]
  have hY : loss_Y (fun _ : Fin n => (1 : ℝ)) hbar = 0 := by
    rw [loss_Y]
    have : (Sum.elim (fun _ : Fin n => Real.sqrt ((1 - 1) * hbar / 2))
        fun _ : Fin n => Real.sqrt ((1 - 1) * hbar / 2))
        = fun _ : Fin n ⊕ Fin n => (0 : ℝ) := by
      funext i; cases i <;> simp
    rw [this]
    simp [Matrix.diagonal_zero]
  refine ⟨hX, hY, fun Scov => ?_⟩
  rw [hX, hY, Matrix.transpose_one, Matrix.one_mul, Matrix.mul_one, add_zero]

/-- Witness for C10 at `n = 1`, `hbar = 1`. -/
theorem loss_channel_trivial_witness :
    (0 : ℝ) < 1 ∧ loss_X (fun _ : Fin 1 => (1 : ℝ)) = 1 :=
  ⟨by norm_num,
   (loss_channel_trivial_at_full_transmissivity (n := 1) 1 (by norm_num)).1⟩

/-! ## Manifold-constrained parameter updates
(`TFOptimizerBackend._update_symplectic`, tfbackend.py lines 137-142, and
`TrainPlugin.update_orthogonal`, trainplugin.py lines 63-67) -/

/-- Modelled from the spec: `utils.J(n)` is not under src/; the spec fixes it
as the `2n×2n` canonical symplectic form with blocks `[[0,I],[-I,0]]`. -/
def Jmat (n : ℕ) : Matrix (Fin n ⊕ Fin n) (Fin n ⊕ Fin n) ℝ :=
  Matrix.fromBlocks 0 1 (-1) 0

theorem Jmat_transpose (n : ℕ) : (Jmat n)ᵀ = -Jmat n := by
  rw [Jmat, Matrix.fromBlocks_transpose, Matrix.fromBlocks_neg]
  simp

theorem Jmat_mul_Jmat (n : ℕ) : Jmat n * Jmat n = -1 := by
  rw [Jmat, Matrix.fromBlocks_multiply, ← Matrix.fromBlocks_one,
    Matrix.fromBlocks_neg]
  simp

theorem isUnit_Jmat (n : ℕ) : IsUnit (Jmat n) := by
  refine ⟨⟨Jmat n, -Jmat n, ?_, ?_⟩, rfl⟩
  · rw [Matrix.mul_neg, Jmat_mul_Jmat, neg_neg]
  · rw [Matrix.neg_mul, Jmat_mul_Jmat, neg_neg]

theorem Jmat_inv (n : ℕ) : (Jmat n)⁻¹ = -Jmat n :=
  Matrix.inv_eq_right_inv (by rw [Matrix.mul_neg, Jmat_mul_Jmat, neg_neg])

/-- Exponentials of matrices in the symplectic Lie algebra land in the
symplectic group: if `Wᵀ·J + J·W = 0` then `exp(W)ᵀ·J·exp(W) = J`. -/
theorem exp_symplectic {n : ℕ} {W : Matrix (Fin n ⊕ Fin n) (Fin n ⊕ Fin n) ℝ}
    (hW : Wᵀ * Jmat n + Jmat n * W = 0) :
    (NormedSpace.exp ℝ W)ᵀ * Jmat n * NormedSpace.exp ℝ W = Jmat n := by
  have hdet : IsUnit (Jmat n).det := (Matrix.isUnit_iff_isUnit_det _).mp (isUnit_Jmat n)
  have h1 : Jmat n * W * (Jmat n)⁻¹ = -Wᵀ := by
    have h0 : Jmat n * W = -(Wᵀ * Jmat n) := eq_neg_of_add_eq_zero_right hW
    rw [h0, Matrix.neg_mul, Matrix.mul_assoc, Matrix.mul_nonsing_inv _ hdet,
      Matrix.mul_one]
  have h2 : NormedSpace.exp ℝ (-Wᵀ) = Jmat n * NormedSpace.exp ℝ W * (Jmat n)⁻¹ := by
    rw [← h1, Matrix.exp_conj ℝ (Jmat n) W (isUnit_Jmat n)]
  have hdetE : IsUnit (NormedSpace.exp ℝ Wᵀ).det :=
    (Matrix.isUnit_iff_isUnit_det _).mp (Matrix.isUnit_exp ℝ Wᵀ)
  have h3 : NormedSpace.exp ℝ (-Wᵀ) * Jmat n = Jmat n * NormedSpace.exp ℝ W := by
    rw [h2, Matrix.mul_assoc, Matrix.nonsing_inv_mul _ hdet, Matrix.mul_one]
  calc (NormedSpace.exp ℝ W)ᵀ * Jmat n * NormedSpace.exp ℝ W
      = NormedSpace.exp ℝ Wᵀ * (Jmat n * NormedSpace.exp ℝ W) := by
        rw [Matrix.exp_transpose, Matrix.mul_assoc]
    _ = NormedSpace.exp ℝ Wᵀ * (NormedSpace.exp ℝ (-Wᵀ) * Jmat n) := by rw [h3]
    _ = NormedSpace.exp ℝ Wᵀ * NormedSpace.exp ℝ (-Wᵀ) * Jmat n := by
        rw [Matrix.mul_assoc]
    _ = Jmat n := by
        rw [Matrix.exp_neg, Matrix.mul_nonsing_inv _ hdetE, Matrix.one_mul]

/-- `TFOptimizerBackend._update_symplectic` (one parameter): compute
`Z = Sᵀ·dS`, project `Y = ½(Z + J·Zᵀ·J)`, and retract
`S ← S · exp(-lr·Yᵀ) · exp(-lr·(Y - Yᵀ))`. -/
noncomputable def update_symplectic (n : ℕ) (lr : ℝ)
    (dS S : Matrix (Fin n ⊕ Fin n) (Fin n ⊕ Fin n) ℝ) :
    Matrix (Fin n ⊕ Fin n) (Fin n ⊕ Fin n) ℝ :=
  let Z := Sᵀ * dS
  let Y := (1 / 2 : ℝ) • (Z + Jmat n * Zᵀ * Jmat n)
  S * NormedSpace.exp ℝ ((-lr) • Yᵀ) * NormedSpace.exp ℝ ((-lr) • (Y - Yᵀ))

/-- Iterating the symplectic update along a stream of ambient gradients. -/
noncomputable def iter_update_symplectic (n : ℕ) (lr : ℝ)
    (g : ℕ → Matrix (Fin n ⊕ Fin n) (Fin n ⊕ Fin n) ℝ) :
    ℕ → Matrix (Fin n ⊕ Fin n) (Fin n ⊕ Fin n) ℝ →
      Matrix (Fin n ⊕ Fin n) (Fin n ⊕ Fin n) ℝ
  | 0, S => S
  | m + 1, S => iter_update_symplectic n lr g m (update_symplectic n lr (g m) S)

theorem symp_proj_transpose (n : ℕ)
    (Z : Matrix (Fin n ⊕ Fin n) (Fin n ⊕ Fin n) ℝ) :
    ((1 / 2 : ℝ) • (Z + Jmat n * Zᵀ * Jmat n))ᵀ
      = (1 / 2 : ℝ) • (Zᵀ + Jmat n * Z * Jmat n) := by
  rw [Matrix.transpose_smul, Matrix.transpose_add, Matrix.transpose_mul,
    Matrix.transpose_mul, Matrix.transpose_transpose, Jmat_transpose]
  congr 1
  congr 1
  simp [Matrix.neg_mul, Matrix.mul_neg, Matrix.mul_assoc]

theorem symp_proj_skew₁ (n : ℕ) (Z : Matrix (Fin n ⊕ Fin n) (Fin n ⊕ Fin n) ℝ) :
    ((1 / 2 : ℝ) • (Z + Jmat n * Zᵀ * Jmat n))ᵀ * Jmat n
      + Jmat n * ((1 / 2 : ℝ) • (Z + Jmat n * Zᵀ * Jmat n)) = 0 := by
  rw [symp_proj_transpose, Matrix.smul_mul, Matrix.mul_smul, ← smul_add]
  have key : (Zᵀ + Jmat n * Z * Jmat n) * Jmat n
      + Jmat n * (Z + Jmat n * Zᵀ * Jmat n) = 0 := by
    have h1 : Jmat n * Z * Jmat n * Jmat n = -(Jmat n * Z) := by
      rw [Matrix.mul_assoc (Jmat n * Z), Jmat_mul_Jmat, Matrix.mul_neg,
        Matrix.mul_one]
    have h2 : Jmat n * (Jmat n * Zᵀ * Jmat n) = -(Zᵀ * Jmat n) := by
      rw [← Matrix.mul_assoc, ← Matrix.mul_assoc, Jmat_mul_Jmat,
        Matrix.neg_mul, Matrix.one_mul, Matrix.neg_mul]
    rw [Matrix.add_mul, Matrix.mul_add, h1, h2]
    abel
  rw [key, smul_zero]

theorem symp_proj_skew₂ (n : ℕ) (Z : Matrix (Fin n ⊕ Fin n) (Fin n ⊕ Fin n) ℝ) :
    ((1 / 2 : ℝ) • (Z + Jmat n * Zᵀ * Jmat n)) * Jmat n
      + Jmat n * ((1 / 2 : ℝ) • (Z + Jmat n * Zᵀ * Jmat n))ᵀ = 0 := by
  rw [symp_proj_transpose, Matrix.smul_mul, Matrix.mul_smul, ← smul_add]
  have key : (Z + Jmat n * Zᵀ * Jmat n) * Jmat n
      + Jmat n * (Zᵀ + Jmat n * Z * Jmat n) = 0 := by
    have h1 : Jmat n * Zᵀ * Jmat n * Jmat n = -(Jmat n * Zᵀ) := by
      rw [Matrix.mul_assoc (Jmat n * Zᵀ), Jmat_mul_Jmat, Matrix.mul_neg,
        Matrix.mul_one]
    have h2 : Jmat n * (Jmat n * Z * Jmat n) = -(Z * Jmat n) := by
      rw [← Matrix.mul_assoc, ← Matrix.mul_assoc, Jmat_mul_Jmat,
        Matrix.neg_mul, Matrix.one_mul, Matrix.neg_mul]
    rw [Matrix.add_mul, Matrix.mul_add, h1, h2]
    abel
  rw [key, smul_zero]

/-- Products of symplectic matrices are symplectic. -/
theorem symp_mul {n : ℕ} {A B : Matrix (Fin n ⊕ Fin n) (Fin n ⊕ Fin n) ℝ}
    (hA : Aᵀ * Jmat n * A = Jmat n) (hB : Bᵀ * Jmat n * B = Jmat n) :
    (A * B)ᵀ * Jmat n * (A * B) = Jmat n := by
  rw [Matrix.transpose_mul]
  have h1 : Bᵀ * Aᵀ * Jmat n * (A * B) = Bᵀ * (Aᵀ * Jmat n * A) * B := by
    noncomm_ring
  rw [h1, hA, hB]

/-- One symplectic retraction step preserves `Sᵀ·J·S = J` exactly. -/
theorem update_symplectic_step {n : ℕ} (lr : ℝ)
    (dS S : Matrix (Fin n ⊕ Fin n) (Fin n ⊕ Fin n) ℝ)
    (hS : Sᵀ * Jmat n * S = Jmat n) :
    (update_symplectic n lr dS S)ᵀ * Jmat n * update_symplectic n lr dS S = Jmat n := by
  rw [update_symplectic]
  set Z := Sᵀ * dS with hZ
  set Y := (1 / 2 : ℝ) • (Z + Jmat n * Zᵀ * Jmat n) with hY
  have hsk₁ : Yᵀ * Jmat n + Jmat n * Y = 0 := symp_proj_skew₁ n Z
  have hsk₂ : Y * Jmat n + Jmat n * Yᵀ = 0 := symp_proj_skew₂ n Z
  have hW₁ : ((-lr) • Yᵀ)ᵀ * Jmat n + Jmat n * ((-lr) • Yᵀ) = 0 := by
    rw [Matrix.transpose_smul, Matrix.transpose_transpose, Matrix.smul_mul,
      Matrix.mul_smul, ← smul_add, hsk₂, smul_zero]
  have hW₂ : ((-lr) • (Y - Yᵀ))ᵀ * Jmat n + Jmat n * ((-lr) • (Y - Yᵀ)) = 0 := by
    rw [Matrix.transpose_smul, Matrix.transpose_sub, Matrix.transpose_transpose,
      Matrix.smul_mul, Matrix.mul_smul, ← smul_add]
    rw [Matrix.sub_mul, Matrix.mul_sub]
    rw [show Yᵀ * Jmat n - Y * Jmat n + (Jmat n * Y - Jmat n * Yᵀ)
        = (Yᵀ * Jmat n + Jmat n * Y) - (Y * Jmat n + Jmat n * Yᵀ) by abel]
    rw [hsk₁, hsk₂, sub_zero, smul_zero]
  exact symp_mul (symp_mul hS (exp_symplectic hW₁)) (exp_symplectic hW₂)

/-- C3. The symplectic retraction `S ← S·exp(-η·Yᵀ)·exp(-η·(Y-Yᵀ))` with
`Z = Sᵀ·dS`, `Y = ½(Z + J·Zᵀ·J)` keeps `Sᵀ·J·S = J` (exactly, hence within
any tolerance), and it stays on the manifold after any number of steps with
arbitrary ambient gradients. -/
theorem update_symplectic_preserves_form {n : ℕ} (lr : ℝ)
    (S : Matrix (Fin n ⊕ Fin n) (Fin n ⊕ Fin n) ℝ)
    (hS : Sᵀ * Jmat n * S = Jmat n) :
    (∀ dS, (update_symplectic n lr dS S)ᵀ * Jmat n * update_symplectic n lr dS S
       = Jmat n) ∧
    ∀ (g : ℕ → Matrix (Fin n ⊕ Fin n) (Fin n ⊕ Fin n) ℝ) (m : ℕ),
      (iter_update_symplectic n lr g m S)ᵀ * Jmat n * iter_update_symplectic n lr g m S
        = Jmat n := by
  have iter_pres : ∀ (g : ℕ → Matrix (Fin n ⊕ Fin n) (Fin n ⊕ Fin n) ℝ) (m : ℕ)
      (S' : Matrix (Fin n ⊕ Fin n) (Fin n ⊕ Fin n) ℝ),
      S'ᵀ * Jmat n * S' = Jmat n →
      (iter_update_symplectic n lr g m S')ᵀ * Jmat n * iter_update_symplectic n lr g m S'
        = Jmat n := by
    intro g m
    induction m with
    | zero =>
        intro S' hS'
        simpa [iter_update_symplectic] using hS'
    | succ k ih =>
        intro S' hS'
        rw [iter_update_symplectic]
        exact ih (update_symplectic n lr (g k) S') (update_symplectic_step lr (g k) S' hS')
  exact ⟨fun dS => update_symplectic_step lr dS S hS, fun g m => iter_pres g m S hS⟩

/-- Witness for C3: one step from the identity matrix (which is symplectic)
with gradient `J` at `n = 1`, `lr = 1`. -/
theorem update_symplectic_preserves_form_witness :
    ((1 : Matrix (Fin 1 ⊕ Fin 1) (Fin 1 ⊕ Fin 1) ℝ)ᵀ * Jmat 1 * 1 = Jmat 1) ∧
    (update_symplectic 1 1 (Jmat 1) 1)ᵀ * Jmat 1 * update_symplectic 1 1 (Jmat 1) 1
      = Jmat 1 :=
  ⟨by rw [Matrix.transpose_one, Matrix.one_mul, Matrix.mul_one],
   (update_symplectic_preserves_form 1 1
      (by rw [Matrix.transpose_one, Matrix.one_mul, Matrix.mul_one])).1 (Jmat 1)⟩

/-- `TrainPlugin.update_orthogonal` (one parameter): compute
`D = ½(dO - O·dOᵀ·O)` and retract `O ← O · exp(lr·(Dᵀ·O))`. -/
noncomputable def update_orthogonal (k : ℕ) (lr : ℝ)
    (dO O : Matrix (Fin k) (Fin k) ℝ) : Matrix (Fin k) (Fin k) ℝ :=
  let D := (1 / 2 : ℝ) • (dO - O * dOᵀ * O)
  O * NormedSpace.exp ℝ (lr • (Dᵀ * O))

/-- Iterating the orthogonal update along a stream of ambient gradients. -/
noncomputable def iter_update_orthogonal (k : ℕ) (lr : ℝ)
    (g : ℕ → Matrix (Fin k) (Fin k) ℝ) :
    ℕ → Matrix (Fin k) (Fin k) ℝ → Matrix (Fin k) (Fin k) ℝ
  | 0, O => O
  | m + 1, O => iter_update_orthogonal k lr g m (update_orthogonal k lr (g m) O)

/-- Exponentials of antisymmetric matrices are orthogonal. -/
theorem exp_orthogonal {k : ℕ} {W : Matrix (Fin k) (Fin k) ℝ} (hW : Wᵀ = -W) :
    (NormedSpace.exp ℝ W)ᵀ * NormedSpace.exp ℝ W = 1 := by
  have hdetE : IsUnit (NormedSpace.exp ℝ W).det :=
    (Matrix.isUnit_iff_isUnit_det _).mp (Matrix.isUnit_exp ℝ W)
  rw [← Matrix.exp_transpose, hW, Matrix.exp_neg, Matrix.nonsing_inv_mul _ hdetE]

theorem orth_proj_apply {k : ℕ} (dO O : Matrix (Fin k) (Fin k) ℝ)
    (hO : Oᵀ * O = 1) :
    ((1 / 2 : ℝ) • (dO - O * dOᵀ * O))ᵀ * O
      = (1 / 2 : ℝ) • (dOᵀ * O - Oᵀ * dO) := by
  rw [Matrix.transpose_smul, Matrix.transpose_sub, Matrix.transpose_mul,
    Matrix.transpose_mul, Matrix.transpose_transpose, Matrix.smul_mul,
    Matrix.sub_mul]
  congr 2
  rw [Matrix.mul_assoc, Matrix.mul_assoc, hO, Matrix.mul_one]

theorem orth_proj_skew {k : ℕ} (lr : ℝ) (dO O : Matrix (Fin k) (Fin k) ℝ)
    (hO : Oᵀ * O = 1) :
    (lr • (((1 / 2 : ℝ) • (dO - O * dOᵀ * O))ᵀ * O))ᵀ
      = -(lr • (((1 / 2 : ℝ) • (dO - O * dOᵀ * O))ᵀ * O)) := by
  rw [orth_proj_apply dO O hO, Matrix.transpose_smul, Matrix.transpose_smul,
    Matrix.transpose_sub, Matrix.transpose_mul, Matrix.transpose_mul,
    Matrix.transpose_transpose, Matrix.transpose_transpose]
  rw [show Oᵀ * dO - dOᵀ * O = -(dOᵀ * O - Oᵀ * dO) by abel, smul_neg, smul_neg]

/-- One orthogonal retraction step preserves `Oᵀ·O = 1` exactly. -/
theorem update_orthogonal_step {k : ℕ} (lr : ℝ)
    (dO O : Matrix (Fin k) (Fin k) ℝ) (hO : Oᵀ * O = 1) :
    (update_orthogonal k lr dO O)ᵀ * update_orthogonal k lr dO O = 1 := by
  rw [update_orthogonal]
  set W := lr • (((1 / 2 : ℝ) • (dO - O * dOᵀ * O))ᵀ * O) with hW
  have hWskew : Wᵀ = -W := orth_proj_skew lr dO O hO
  rw [Matrix.transpose_mul]
  have h1 : (NormedSpace.exp ℝ W)ᵀ * Oᵀ * (O * NormedSpace.exp ℝ W)
      = (NormedSpace.exp ℝ W)ᵀ * (Oᵀ * O) * NormedSpace.exp ℝ W := by
    noncomm_ring
  rw [h1, hO, Matrix.mul_one, exp_orthogonal hWskew]

/-- C4. The orthogonal retraction `O ← O·exp(η·Dᵀ·O)` with
`D = ½(dO - O·dOᵀ·O)` keeps `Oᵀ·O = I` (exactly, hence within any
tolerance), and it stays orthogonal after any number of steps with arbitrary
ambient gradients. -/
theorem update_orthogonal_preserves_orthogonality {k : ℕ} (lr : ℝ)
    (O : Matrix (Fin k) (Fin k) ℝ) (hO : Oᵀ * O = 1) :
    (∀ dO, (update_orthogonal k lr dO O)ᵀ * update_orthogonal k lr dO O = 1) ∧
    ∀ (g : ℕ → Matrix (Fin k) (Fin k) ℝ) (m : ℕ),
      (iter_update_orthogonal k lr g m O)ᵀ * iter_update_orthogonal k lr g m O = 1 := by
  have iter_pres : ∀ (g : ℕ → Matrix (Fin k) (Fin k) ℝ) (m : ℕ)
      (O' : Matrix (Fin k) (Fin k) ℝ), O'ᵀ * O' = 1 →
      (iter_update_orthogonal k lr g m O')ᵀ * iter_update_orthogonal k lr g m O' = 1 := by
    intro g m
    induction m with
    | zero =>
        intro O' hO'
        simpa [iter_update_orthogonal] using hO'
    | succ j ih =>
        intro O' hO'
        rw [iter_update_orthogonal]
        exact ih (update_orthogonal k lr (g j) O') (update_orthogonal_step lr (g j) O' hO')
  exact ⟨fun dO => update_orthogonal_step lr dO O hO, fun g m => iter_pres g m O hO⟩

/-- Witness for C4: one step from the identity matrix with gradient `1` at
`k = 2`, `lr = 1`. -/
theorem update_orthogonal_preserves_orthogonality_witness :
    ((1 : Matrix (Fin 2) (Fin 2) ℝ)ᵀ * 1 = 1) ∧
    (update_orthogonal 2 1 1 1)ᵀ * update_orthogonal 2 1 1 1 = 1 :=
  ⟨by rw [Matrix.transpose_one, Matrix.one_mul],
   (update_orthogonal_preserves_orthogonality 1 1
      (by rw [Matrix.transpose_one, Matrix.one_mul])).1 1⟩

/-! ## Fock-amplitude recursion engine
(`TFCircuitBackend._recursive_state`, tfbackend.py lines 83-99) -/

/-- Decrement a multi-index on axis `k` (the step `idx - e_k`, truncated). -/
def dec1 {M : ℕ} (idx : Fin M → ℕ) (k : Fin M) : Fin M → ℕ :=
  Function.update idx k (idx k - 1)

/-- The axes of a multi-index holding a nonzero entry. -/
def pivotSet {M : ℕ} (idx : Fin M → ℕ) : Finset (Fin M) :=
  Finset.univ.filter (fun i => idx i ≠ 0)

theorem sum_dec1_le {M : ℕ} (idx : Fin M → ℕ) (k : Fin M) :
    ∑ i, dec1 idx k i ≤ ∑ i, idx i := by
  rw [dec1, Finset.sum_update_of_mem (Finset.mem_univ k),
    Finset.sdiff_singleton_eq_erase, ← Finset.add_sum_erase _ idx (Finset.mem_univ k)]
  exact Nat.add_le_add_right (Nat.sub_le _ _) _

theorem sum_dec1_lt {M : ℕ} (idx : Fin M → ℕ) (k : Fin M) (hk : idx k ≠ 0) :
    ∑ i, dec1 idx k i < ∑ i, idx i := by
  rw [dec1, Finset.sum_update_of_mem (Finset.mem_univ k),
    Finset.sdiff_singleton_eq_erase, ← Finset.add_sum_erase _ idx (Finset.mem_univ k)]
  exact Nat.add_lt_add_right (Nat.sub_lt (Nat.pos_of_ne_zero hk) one_pos) _

theorem pivot_ne_zero {M : ℕ} (idx : Fin M → ℕ) (h : (pivotSet idx).Nonempty) :
    idx ((pivotSet idx).min' h) ≠ 0 := by
  have hmem : (pivotSet idx).min' h ∈ Finset.univ.filter (fun i => idx i ≠ 0) :=
    Finset.min'_mem (pivotSet idx) h
  exact (Finset.mem_filter.mp hmem).2

/-- Modelled from the spec: the numba kernel
`mrmustard._backends.utils.fill_amplitudes` is not under src/. Per the spec
(§4.2), the tensor obeys the three-term ladder recurrence, advancing one axis
`k` at a time (here: the first axis carrying a nonzero index), with
`tensor[0,...,0] = C` as boundary condition and terms reaching a negative
index contributing zero. `sq` stands for the square-root function on the
(machine-float) scalar field. -/
def fockRec {F : Type} [Field F] (sq : ℕ → F) {M : ℕ}
    (A : Matrix (Fin M) (Fin M) F) (B : Fin M → F) (C : F)
    (idx : Fin M → ℕ) : F :=
  if h : (pivotSet idx).Nonempty then
    (B ((pivotSet idx).min' h) * fockRec sq A B C (dec1 idx ((pivotSet idx).min' h))
      + ∑ j, (if (if j = (pivotSet idx).min' h then 2 else 1) ≤ idx j
              then A ((pivotSet idx).min' h) j
                     * sq (if j = (pivotSet idx).min' h
                           then idx ((pivotSet idx).min' h) - 1 else idx j)
                     * fockRec sq A B C (dec1 (dec1 idx ((pivotSet idx).min' h)) j)
              else 0)) / sq (idx ((pivotSet idx).min' h))
  else C
termination_by ∑ i, idx i
decreasing_by
  · exact sum_dec1_lt idx _ (pivot_ne_zero idx h)
  · exact lt_of_le_of_lt (sum_dec1_le (dec1 idx _) j) (sum_dec1_lt idx _ (pivot_ne_zero idx h))

theorem fockRec_zero {F : Type} [Field F] (sq : ℕ → F) {M : ℕ}
    (A : Matrix (Fin M) (Fin M) F) (B : Fin M → F) (C : F) :
    fockRec sq A B C (fun _ => 0) = C := by
  rw [fockRec, dif_neg]
  simp [pivotSet]

theorem pivot_min'_eq {M : ℕ} (idx : Fin M → ℕ) (k : Fin M)
    (h1 : 1 ≤ idx k) (h2 : ∀ j, j < k → idx j = 0)
    (h : (pivotSet idx).Nonempty) : (pivotSet idx).min' h = k := by
  apply le_antisymm
  · apply Finset.min'_le
    rw [pivotSet, Finset.mem_filter]
    exact ⟨Finset.mem_univ k, by omega⟩
  · apply Finset.le_min'
    intro y hy
    by_contra hlt
    push_neg at hlt
    rw [pivotSet, Finset.mem_filter] at hy
    exact hy.2 (h2 y hlt)

/-- The recurrence equation of `fockRec` at the pivot axis `k` (the first
axis with a nonzero index). -/
theorem fockRec_step {F : Type} [Field F] (sq : ℕ → F) {M : ℕ}
    (A : Matrix (Fin M) (Fin M) F) (B : Fin M → F) (C : F)
    (idx : Fin M → ℕ) (k : Fin M)
    (h1 : 1 ≤ idx k) (h2 : ∀ j, j < k → idx j = 0) :
    fockRec sq A B C idx
      = (B k * fockRec sq A B C (dec1 idx k)
         + ∑ j, (if (if j = k then 2 else 1) ≤ idx j
                 then A k j * sq (if j = k then idx k - 1 else idx j)
                        * fockRec sq A B C (dec1 (dec1 idx k) j)
                 else 0)) / sq (idx k) := by
  have hne : (pivotSet idx).Nonempty := by
    refine ⟨k, ?_⟩
    rw [pivotSet, Finset.mem_filter]
    exact ⟨Finset.mem_univ k, by omega⟩
  rw [fockRec, dif_pos hne, pivot_min'_eq idx k h1 h2 hne]

theorem dec1_const_one_mode (n : ℕ) :
    dec1 (fun _ : Fin 1 => n + 1) 0 = fun _ => n := by
  funext i
  have hi : i = 0 := Subsingleton.elim i 0
  rw [hi, dec1, Function.update_same]
  omega

/-- The recurrence specialised to a single mode: `tensor[n+1]
= (B[0]·tensor[n] + A[0,0]·sqrt(n)·tensor[n-1]) / sqrt(n+1)`, the second
term present only for `n ≥ 1`. -/
theorem fockRec_one_mode {F : Type} [Field F] (sq : ℕ → F)
    (A : Matrix (Fin 1) (Fin 1) F) (B : Fin 1 → F) (C : F) (n : ℕ) :
    fockRec sq A B C (fun _ => n + 1)
      = (B 0 * fockRec sq A B C (fun _ => n)
         + (if 2 ≤ n + 1 then A 0 0 * sq n * fockRec sq A B C (fun _ => n - 1)
            else 0)) / sq (n + 1) := by
  have h := fockRec_step sq A B C (fun _ => n + 1) 0
    (by exact Nat.succ_le_succ (Nat.zero_le n))
    (fun j hj => absurd hj (by simp [Fin.lt_def, Fin.val_eq_zero]))
  rw [h, dec1_const_one_mode n, Fin.sum_univ_one]
  have hd : dec1 (fun _ : Fin 1 => n) 0 = fun _ => n - 1 := by
    funext i
    have hi : i = 0 := Subsingleton.elim i 0
    rw [hi, dec1, Function.update_same]
  simp [hd]

/-- C1. The recursion engine's tensor has `tensor[0,...,0] = C`, and at every
multi-index `idx` with `idx[k] ≥ 1` (k the axis the recursion advances, i.e.
the first nonzero axis) it equals
`(B[k]·tensor[idx-e_k] + Σ_j A[k,j]·sqrt(idx[j]')·tensor[idx-e_k-e_j]) / sqrt(idx[k])`,
terms with a negative index contributing zero; in particular for
`A=[[0.5]], B=[0.3], C=1` and cutoff 4 the 4-element output satisfies the
recurrence exactly. -/
theorem fock_recursion_spec :
    (∀ (F : Type) [Field F] (sq : ℕ → F) (M : ℕ) (A : Matrix (Fin M) (Fin M) F)
       (B : Fin M → F) (C : F),
       fockRec sq A B C (fun _ => 0) = C ∧
       ∀ (idx : Fin M → ℕ) (k : Fin M), 1 ≤ idx k → (∀ j, j < k → idx j = 0) →
         fockRec sq A B C idx
           = (B k * fockRec sq A B C (dec1 idx k)
              + ∑ j, (if (if j = k then 2 else 1) ≤ idx j
                      then A k j * sq (if j = k then idx k - 1 else idx j)
                             * fockRec sq A B C (dec1 (dec1 idx k) j)
                      else 0)) / sq (idx k)) ∧
    (∀ (csq : ℕ → ℂ) (A : Matrix (Fin 1) (Fin 1) ℂ) (B : Fin 1 → ℂ),
       A 0 0 = 1 / 2 → B 0 = 3 / 10 →
       fockRec csq A B 1 (fun _ => 0) = 1 ∧
       fockRec csq A B 1 (fun _ => 1)
         = B 0 * fockRec csq A B 1 (fun _ => 0) / csq 1 ∧
       fockRec csq A B 1 (fun _ => 2)
         = (B 0 * fockRec csq A B 1 (fun _ => 1)
            + A 0 0 * csq 1 * fockRec csq A B 1 (fun _ => 0)) / csq 2 ∧
       fockRec csq A B 1 (fun _ => 3)
         = (B 0 * fockRec csq A B 1 (fun _ => 2)
            + A 0 0 * csq 2 * fockRec csq A B 1 (fun _ => 1)) / csq 3) := by
  constructor
  · intro F _ sq M A B C
    exact ⟨fockRec_zero sq A B C, fun idx k h1 h2 => fockRec_step sq A B C idx k h1 h2⟩
  · intro csq A B _ _
    refine ⟨fockRec_zero csq A B 1, ?_, ?_, ?_⟩
    · rw [show (fun _ : Fin 1 => 1) = (fun _ : Fin 1 => 0 + 1) by norm_num,
        fockRec_one_mode]
      norm_num
    · rw [show (fun _ : Fin 1 => 2) = (fun _ : Fin 1 => 1 + 1) by norm_num,
        fockRec_one_mode]
      norm_num
    · rw [show (fun _ : Fin 1 => 3) = (fun _ : Fin 1 => 2 + 1) by norm_num,
        fockRec_one_mode]
      norm_num

/-- Witness for C1: the single-mode recurrence applied over `ℚ` at index 2,
with all hypotheses discharged concretely. -/
theorem fock_recursion_spec_witness :
    (1 : ℕ) ≤ (fun _ : Fin 1 => 2) (0 : Fin 1) ∧
    fockRec (fun m => (m : ℚ)) (fun _ _ : Fin 1 => (1 / 2 : ℚ))
        (fun _ : Fin 1 => 3 / 10) 1 (fun _ : Fin 1 => 2)
      = ((fun _ : Fin 1 => (3 / 10 : ℚ)) 0
          * fockRec (fun m => (m : ℚ)) (fun _ _ : Fin 1 => (1 / 2 : ℚ))
              (fun _ : Fin 1 => 3 / 10) 1 (dec1 (fun _ : Fin 1 => 2) 0)
         + ∑ j : Fin 1, (if (if j = 0 then 2 else 1) ≤ (fun _ : Fin 1 => (2 : ℕ)) j
                 then (fun _ _ : Fin 1 => (1 / 2 : ℚ)) 0 j
                        * (((if j = 0 then (fun _ : Fin 1 => (2 : ℕ)) 0 - 1
                             else (fun _ : Fin 1 => (2 : ℕ)) j) : ℕ) : ℚ)
                        * fockRec (fun m => (m : ℚ)) (fun _ _ : Fin 1 => (1 / 2 : ℚ))
                            (fun _ : Fin 1 => 3 / 10) 1
                            (dec1 (dec1 (fun _ : Fin 1 => 2) 0) j)
                 else 0)) / (((fun _ : Fin 1 => (2 : ℕ)) 0 : ℕ) : ℚ) :=
  ⟨by norm_num,
   ((fock_recursion_spec).1 ℚ (fun m => (m : ℚ)) 1 (fun _ _ => 1 / 2) (fun _ => 3 / 10) 1).2
     (fun _ => 2) 0 (by norm_num) (fun j hj => absurd hj (by simp [Fin.lt_def, Fin.val_eq_zero]))⟩

/-- The tensor depends on `C` linearly, as a common factor of the boundary
condition: `fockRec A B C = C · fockRec A B 1` entrywise. -/
theorem fockRec_linear_in_C {F : Type} [Field F] (sq : ℕ → F) {M : ℕ}
    (A : Matrix (Fin M) (Fin M) F) (B : Fin M → F) (C : F)
    (idx : Fin M → ℕ) :
    fockRec sq A B C idx = C * fockRec sq A B 1 idx := by
  have main : ∀ (N : ℕ) (idx : Fin M → ℕ), ∑ i, idx i ≤ N →
      fockRec sq A B C idx = C * fockRec sq A B 1 idx := by
    intro N
    induction N with
    | zero =>
        intro idx hidx
        have hz : idx = fun _ => 0 := by
          funext i
          have hle : idx i ≤ ∑ i, idx i := Finset.single_le_sum
            (f := idx) (fun _ _ => Nat.zero_le _) (Finset.mem_univ i)
          omega
        rw [hz, fockRec_zero, fockRec_zero, mul_one]
    | succ N ih =>
        intro idx hidx
        by_cases h : (pivotSet idx).Nonempty
        · have hk := pivot_ne_zero idx h
          have hlt := sum_dec1_lt idx ((pivotSet idx).min' h) hk
          have h1 : ∑ i, dec1 idx ((pivotSet idx).min' h) i ≤ N := by omega
          have h2 : ∀ j, ∑ i, dec1 (dec1 idx ((pivotSet idx).min' h)) j i ≤ N := by
            intro j
            have := sum_dec1_le (dec1 idx ((pivotSet idx).min' h)) j
            omega
          conv_lhs => rw [fockRec]
          conv_rhs => rw [fockRec]
          rw [dif_pos h, dif_pos h]
          rw [ih _ h1]
          have hsum : ∑ j, (if (if j = (pivotSet idx).min' h then 2 else 1) ≤ idx j
                then A ((pivotSet idx).min' h) j
                       * sq (if j = (pivotSet idx).min' h
                             then idx ((pivotSet idx).min' h) - 1 else idx j)
                       * fockRec sq A B C (dec1 (dec1 idx ((pivotSet idx).min' h)) j)
                else 0)
              = ∑ j, (if (if j = (pivotSet idx).min' h then 2 else 1) ≤ idx j
                then A ((pivotSet idx).min' h) j
                       * sq (if j = (pivotSet idx).min' h
                             then idx ((pivotSet idx).min' h) - 1 else idx j)
                       * (C * fockRec sq A B 1 (dec1 (dec1 idx ((pivotSet idx).min' h)) j))
                else 0) := by
            apply Finset.sum_congr rfl
            intro j _
            by_cases hc : (if j = (pivotSet idx).min' h then 2 else 1) ≤ idx j
            · rw [if_pos hc, if_pos hc, ih _ (h2 j)]
            · rw [if_neg hc, if_neg hc]
          rw [hsum, ← mul_div_assoc]
          congr 1
          rw [mul_add, Finset.mul_sum]
          congr 1
          · ring
          · apply Finset.sum_congr rfl
            intro j _
            rw [mul_ite, mul_zero]
            by_cases hc : (if j = (pivotSet idx).min' h then 2 else 1) ≤ idx j
            · rw [if_pos hc, if_pos hc]
              ring
            · rw [if_neg hc, if_neg hc]
        · conv_lhs => rw [fockRec]
          conv_rhs => rw [fockRec]
          rw [dif_neg h, dif_neg h, mul_one]
  exact main (∑ i, idx i) idx le_rfl

/-- The `dC` leg of the backward pass of `TFCircuitBackend._recursive_state`
(tfbackend.py lines 90-98): `dC = state / C` entrywise and
`dLdC = sum(dy * conj(dC))` over all tensor indices. -/
def dLdC {F : Type} [Field F] [StarRing F] (sq : ℕ → F) {M : ℕ}
    (A : Matrix (Fin M) (Fin M) F) (B : Fin M → F) (C : F)
    (cutoffs : Fin M → ℕ) (dy : (∀ i, Fin (cutoffs i)) → F) : F :=
  ∑ idx : ∀ i, Fin (cutoffs i),
    dy idx * star (fockRec sq A B C (fun i => (idx i : ℕ)) / C)

/-- C5. The backward pass returns `dL/dC = Σ_idx dy[idx]·conj(tensor[idx]/C)`,
and (for `C ≠ 0`) the per-entry sensitivity `tensor/C` is exactly the tensor
regenerated with boundary value 1, i.e. the true linear coefficient of `C`. -/
theorem backward_dC_spec :
    ∀ (F : Type) [Field F] [StarRing F] (sq : ℕ → F) (M : ℕ)
      (A : Matrix (Fin M) (Fin M) F) (B : Fin M → F) (C : F)
      (cutoffs : Fin M → ℕ) (dy : (∀ i, Fin (cutoffs i)) → F),
      (dLdC sq A B C cutoffs dy
        = ∑ idx : ∀ i, Fin (cutoffs i),
            dy idx * star (fockRec sq A B C (fun i => (idx i : ℕ)) / C)) ∧
      (C ≠ 0 → ∀ idx : Fin M → ℕ,
        fockRec sq A B C idx / C = fockRec sq A B 1 idx) := by
  intro F _ _ sq M A B C cutoffs dy
  refine ⟨rfl, fun hC idx => ?_⟩
  rw [fockRec_linear_in_C sq A B C idx, mul_comm, mul_div_assoc,
    div_self hC, mul_one]

/-- Witness for C5 over `ℚ` with `C = 2 ≠ 0`. -/
theorem backward_dC_spec_witness :
    (2 : ℚ) ≠ 0 ∧
    fockRec (fun m => (m : ℚ)) (fun _ _ : Fin 1 => 1 / 2) (fun _ : Fin 1 => 3 / 10)
        2 (fun _ : Fin 1 => 1) / 2
      = fockRec (fun m => (m : ℚ)) (fun _ _ : Fin 1 => 1 / 2) (fun _ : Fin 1 => 3 / 10)
          1 (fun _ : Fin 1 => 1) :=
  ⟨by norm_num,
   (backward_dC_spec ℚ (fun m => (m : ℚ)) 1 (fun _ _ => 1 / 2) (fun _ => 3 / 10) 2
      (fun _ => 1) (fun _ => 0)).2 (by norm_num) (fun _ => 1)⟩

/-- `TFCircuitBackend._recursive_state`, forward pass (tfbackend.py lines
83-89): allocate `np.zeros(cutoffs)` (which always succeeds, even on a
zero-sized shape), write `C` at index `(0,...,0)` — numpy raises `IndexError`
there when any axis has size 0 — then run the fill kernel. On success the
tensor equals `fockRec` below the cutoffs. -/
def recursive_state {F : Type} [Field F] (sq : ℕ → F) {M : ℕ}
    (A : Matrix (Fin M) (Fin M) F) (B : Fin M → F) (C : F)
    (cutoffs : Fin M → ℕ) : Except PyError ((Fin M → ℕ) → F) :=
  if ∀ i, 0 < cutoffs i then Except.ok (fockRec sq A B C)
  else Except.error PyError.indexError

/-- Counterexample to C8: with cutoff 0 the call fails with `IndexError`
(raised by the boundary write into the already-allocated empty tensor), not
with `InvalidArgument`; no validation runs before the computation. -/
theorem recursive_state_zero_cutoff_counterexample :
    recursive_state (fun m => (m : ℚ)) (fun _ _ : Fin 1 => 1 / 2)
        (fun _ : Fin 1 => 3 / 10) 1 (fun _ : Fin 1 => 0)
      = Except.error PyError.indexError ∧
    PyError.indexError ≠ PyError.invalidArgument := by
  constructor
  · rw [recursive_state, if_neg]
    intro hall
    exact absurd (hall 0) (by omega)
  · decide

/-- C8 (amended). For every cutoffs sequence containing a 0, the forward call
fails — with an `IndexError` raised when writing the vacuum amplitude into
the (already allocated, zero-sized) tensor — and no output tensor is
produced. -/
theorem recursive_state_zero_cutoff_fails :
    ∀ (F : Type) [Field F] (sq : ℕ → F) (M : ℕ)
      (A : Matrix (Fin M) (Fin M) F) (B : Fin M → F) (C : F)
      (cutoffs : Fin M → ℕ), (∃ i, cutoffs i = 0) →
      recursive_state sq A B C cutoffs = Except.error PyError.indexError := by
  intro F _ sq M A B C cutoffs h
  obtain ⟨i, hi⟩ := h
  rw [recursive_state, if_neg]
  intro hall
  have := hall i
  omega

/-- Witness for the amended C8 at a concrete input. -/
theorem recursive_state_zero_cutoff_fails_witness :
    (∃ i : Fin 1, (fun _ : Fin 1 => 0) i = 0) ∧
    recursive_state (fun m => (m : ℚ)) (fun _ _ : Fin 1 => 1 / 2)
        (fun _ : Fin 1 => 3 / 10) 1 (fun _ : Fin 1 => 0)
      = Except.error PyError.indexError :=
  ⟨⟨0, rfl⟩,
   recursive_state_zero_cutoff_fails ℚ (fun m => (m : ℚ)) 1 (fun _ _ => 1 / 2)
     (fun _ => 3 / 10) 1 (fun _ => 0) ⟨0, rfl⟩⟩

/-! ## Symplectic parameter initialisation
(`TFMathbackend.make_symplectic_parameter` and
`TFMathbackend.unitary_to_orthogonal`, tfbackend.py lines 409-441) -/

/-- `TFMathbackend.unitary_to_orthogonal`: the block embedding
`block([[X, -Y], [Y, X]])` with `X = Re U`, `Y = Im U`. -/
def unitary_to_orthogonal {n : ℕ} (U : Matrix (Fin n) (Fin n) ℂ) :
    Matrix (Fin n ⊕ Fin n) (Fin n ⊕ Fin n) ℝ :=
  Matrix.fromBlocks (U.map Complex.re) (-(U.map Complex.im))
    (U.map Complex.im) (U.map Complex.re)

/-- `TFMathbackend.make_symplectic_parameter`, fresh-initialisation branch:
`dd = concat(exp(-r), exp(r))` and
`val = einsum('ij,j,jk->ik', OW, dd, OV) = OW · diag(dd) · OV`. -/
noncomputable def make_symplectic_init {n : ℕ} (W V : Matrix (Fin n) (Fin n) ℂ)
    (r : Fin n → ℝ) : Matrix (Fin n ⊕ Fin n) (Fin n ⊕ Fin n) ℝ :=
  unitary_to_orthogonal W
    * Matrix.diagonal (Sum.elim (fun i => Real.exp (-r i)) (fun i => Real.exp (r i)))
    * unitary_to_orthogonal V

/-- Real and imaginary parts of a unitary matrix satisfy
`XᵀX + YᵀY = 1` and `XᵀY - YᵀX = 0`. -/
theorem unitary_re_im {n : ℕ} (U : Matrix (Fin n) (Fin n) ℂ) (hU : Uᴴ * U = 1) :
    (U.map Complex.re)ᵀ * U.map Complex.re
        + (U.map Complex.im)ᵀ * U.map Complex.im = 1 ∧
    (U.map Complex.re)ᵀ * U.map Complex.im
        - (U.map Complex.im)ᵀ * U.map Complex.re = 0 := by
  have entry : ∀ j k, (∑ i, star (U i j) * U i k)
      = if j = k then (1 : ℂ) else 0 := by
    intro j k
    have h1 : (Uᴴ * U) j k = (1 : Matrix (Fin n) (Fin n) ℂ) j k := by rw [hU]
    rw [Matrix.mul_apply, Matrix.one_apply] at h1
    simpa [Matrix.conjTranspose_apply] using h1
  constructor
  · ext j k
    have h2 := congrArg Complex.re (entry j k)
    rw [Complex.re_sum] at h2
    have h3 : ∀ i, (star (U i j) * U i k).re
        = (U i j).re * (U i k).re + (U i j).im * (U i k).im := by
      intro i
      rw [Complex.mul_re, Complex.star_def, Complex.conj_re, Complex.conj_im]
      ring
    rw [Finset.sum_congr rfl (fun i _ => h3 i)] at h2
    rw [Matrix.add_apply, Matrix.mul_apply, Matrix.mul_apply]
    simp only [Matrix.transpose_apply, Matrix.map_apply]
    rw [← Finset.sum_add_distrib, Matrix.one_apply]
    rw [h2]
    by_cases hjk : j = k
    · simp [hjk]
    · simp [hjk]
  · ext j k
    have h2 := congrArg Complex.im (entry j k)
    rw [Complex.im_sum] at h2
    have h3 : ∀ i, (star (U i j) * U i k).im
        = (U i j).re * (U i k).im - (U i j).im * (U i k).re := by
      intro i
      rw [Complex.mul_im, Complex.star_def, Complex.conj_re, Complex.conj_im]
      ring
    rw [Finset.sum_congr rfl (fun i _ => h3 i)] at h2
    rw [Matrix.sub_apply, Matrix.mul_apply, Matrix.mul_apply]
    simp only [Matrix.transpose_apply, Matrix.map_apply]
    rw [← Finset.sum_sub_distrib]
    rw [h2]
    by_cases hjk : j = k <;> simp [hjk]

/-- The block embedding of a unitary matrix is symplectic. -/
theorem unitary_to_orthogonal_symplectic {n : ℕ} (U : Matrix (Fin n) (Fin n) ℂ)
    (hU : Uᴴ * U = 1) :
    (unitary_to_orthogonal U)ᵀ * Jmat n * unitary_to_orthogonal U = Jmat n := by
  obtain ⟨h1, h2⟩ := unitary_re_im U hU
  rw [unitary_to_orthogonal, Jmat, Matrix.fromBlocks_transpose,
    Matrix.fromBlocks_multiply, Matrix.fromBlocks_multiply]
  rw [Matrix.fromBlocks_inj]
  refine ⟨?_, ?_, ?_, ?_⟩
  · simp only [Matrix.mul_zero, Matrix.mul_one, Matrix.mul_neg, zero_add,
      add_zero, Matrix.neg_mul]
    rw [neg_add_eq_sub]
    exact h2
  · simp only [Matrix.mul_zero, Matrix.mul_one, Matrix.mul_neg, zero_add,
      add_zero, Matrix.neg_mul, neg_neg]
    rw [add_comm]
    exact h1
  · simp only [Matrix.mul_zero, Matrix.mul_one, Matrix.mul_neg, zero_add,
      add_zero, Matrix.neg_mul, Matrix.transpose_neg]
    rw [← neg_add, h1]
  · simp only [Matrix.mul_zero, Matrix.mul_one, Matrix.mul_neg, zero_add,
      add_zero, Matrix.neg_mul, Matrix.transpose_neg, neg_neg]
    rw [← sub_eq_add_neg]
    exact h2

/-- The squeezing diagonal `diag(exp(-r), exp(r))` is symplectic. -/
theorem diag_squeeze_symplectic {n : ℕ} (r : Fin n → ℝ) :
    (Matrix.diagonal (Sum.elim (fun i => Real.exp (-r i)) (fun i => Real.exp (r i))))ᵀ
      * Jmat n
      * Matrix.diagonal (Sum.elim (fun i => Real.exp (-r i)) (fun i => Real.exp (r i)))
      = Jmat n := by
  have hD : Matrix.diagonal (fun i : Fin n => Real.exp (-r i))
      * Matrix.diagonal (fun i => Real.exp (r i)) = 1 := by
    rw [Matrix.diagonal_mul_diagonal]
    rw [show (fun i : Fin n => Real.exp (-r i) * Real.exp (r i))
        = fun _ : Fin n => (1 : ℝ) from funext fun i => by
          rw [← Real.exp_add, neg_add_cancel, Real.exp_zero]]
    exact Matrix.diagonal_one
  have hD' : Matrix.diagonal (fun i : Fin n => Real.exp (r i))
      * Matrix.diagonal (fun i => Real.exp (-r i)) = 1 := by
    rw [Matrix.diagonal_mul_diagonal]
    rw [show (fun i : Fin n => Real.exp (r i) * Real.exp (-r i))
        = fun _ : Fin n => (1 : ℝ) from funext fun i => by
          rw [← Real.exp_add, add_neg_cancel, Real.exp_zero]]
    exact Matrix.diagonal_one
  rw [Matrix.diagonal_transpose, ← Matrix.fromBlocks_diagonal, Jmat,
    Matrix.fromBlocks_multiply, Matrix.fromBlocks_multiply,
    Matrix.fromBlocks_inj]
  refine ⟨?_, ?_, ?_, ?_⟩
  · simp
  · simp only [Matrix.mul_zero, Matrix.zero_mul, Matrix.mul_one, Matrix.one_mul,
      Matrix.mul_neg, Matrix.neg_mul, add_zero, zero_add]
    exact hD
  · simp only [Matrix.mul_zero, Matrix.zero_mul, Matrix.mul_one, Matrix.one_mul,
      Matrix.mul_neg, Matrix.neg_mul, add_zero, zero_add]
    rw [hD']
  · simp

/-- Counterexample to C6 as stated: with `W = 1`, `V = [[i]]`, `r = 0` the
initial value produced by the code, `OW·diag(exp(-r),exp(r))·OV`, differs
from the claimed `OW·diag(exp(-r),exp(r))·OVᵀ` (the code applies no transpose
to `OV`). -/
theorem make_symplectic_transpose_counterexample :
    make_symplectic_init (1 : Matrix (Fin 1) (Fin 1) ℂ)
        (fun _ _ => Complex.I) (fun _ => 0)
      ≠ unitary_to_orthogonal (1 : Matrix (Fin 1) (Fin 1) ℂ)
          * Matrix.diagonal (Sum.elim (fun i : Fin 1 => Real.exp (-(fun _ : Fin 1 => (0 : ℝ)) i))
              (fun i : Fin 1 => Real.exp ((fun _ : Fin 1 => (0 : ℝ)) i)))
          * (unitary_to_orthogonal (fun _ _ => Complex.I))ᵀ := by
  have hO : unitary_to_orthogonal (1 : Matrix (Fin 1) (Fin 1) ℂ) = 1 := by
    rw [unitary_to_orthogonal]
    rw [show (1 : Matrix (Fin 1) (Fin 1) ℂ).map Complex.re = 1 from by
      ext i j
      rw [Matrix.map_apply, Matrix.one_apply, Matrix.one_apply, apply_ite Complex.re]
      simp]
    rw [show (1 : Matrix (Fin 1) (Fin 1) ℂ).map Complex.im = 0 from by
      ext i j
      rw [Matrix.map_apply, Matrix.one_apply, Matrix.zero_apply, apply_ite Complex.im]
      simp]
    rw [neg_zero, Matrix.fromBlocks_one]
  have hD : Matrix.diagonal (Sum.elim (fun i : Fin 1 => Real.exp (-(fun _ : Fin 1 => (0 : ℝ)) i))
      (fun i : Fin 1 => Real.exp ((fun _ : Fin 1 => (0 : ℝ)) i)))
      = (1 : Matrix (Fin 1 ⊕ Fin 1) (Fin 1 ⊕ Fin 1) ℝ) := by
    rw [show (Sum.elim (fun i : Fin 1 => Real.exp (-(fun _ : Fin 1 => (0 : ℝ)) i))
        (fun i : Fin 1 => Real.exp ((fun _ : Fin 1 => (0 : ℝ)) i)))
        = fun _ : Fin 1 ⊕ Fin 1 => (1 : ℝ) from funext fun i => by
          cases i <;> simp]
    exact Matrix.diagonal_one
  rw [make_symplectic_init, hO, hD]
  simp only [Matrix.one_mul, Matrix.mul_one]
  intro hEq
  have h := congrArg (fun m => m (Sum.inl 0) (Sum.inr 0)) hEq
  simp only [Matrix.transpose_apply, unitary_to_orthogonal,
    Matrix.fromBlocks_apply₁₂, Matrix.fromBlocks_apply₂₁, Matrix.neg_apply,
    Matrix.map_apply] at h
  rw [Complex.I_im] at h
  norm_num at h

/-- C6 (amended). A freshly initialised symplectic parameter equals
`OW · diag(exp(-r), exp(r)) · OV` — with no transpose on `OV` — where `OW`,
`OV` are the block embeddings `[[Re,-Im],[Im,Re]]` of the two sampled unitary
matrices; and for unitary `W`, `V` the initial value is in `Sp(2n,ℝ)`. -/
theorem make_symplectic_spec :
    ∀ (n : ℕ) (W V : Matrix (Fin n) (Fin n) ℂ) (r : Fin n → ℝ),
      Wᴴ * W = 1 → Vᴴ * V = 1 →
      (make_symplectic_init W V r
        = unitary_to_orthogonal W
            * Matrix.diagonal (Sum.elim (fun i => Real.exp (-r i))
                (fun i => Real.exp (r i)))
            * unitary_to_orthogonal V) ∧
      (make_symplectic_init W V r)ᵀ * Jmat n * make_symplectic_init W V r
        = Jmat n := by
  intro n W V r hW hV
  refine ⟨rfl, ?_⟩
  rw [make_symplectic_init]
  exact symp_mul (symp_mul (unitary_to_orthogonal_symplectic W hW)
    (diag_squeeze_symplectic r)) (unitary_to_orthogonal_symplectic V hV)

/-- Witness for C6 (amended) at `n = 1`, `W = V = 1`, `r = 0`. -/
theorem make_symplectic_spec_witness :
    ((1 : Matrix (Fin 1) (Fin 1) ℂ)ᴴ * 1 = 1) ∧
    (make_symplectic_init (1 : Matrix (Fin 1) (Fin 1) ℂ) 1 (fun _ => 0))ᵀ * Jmat 1
      * make_symplectic_init (1 : Matrix (Fin 1) (Fin 1) ℂ) 1 (fun _ => 0) = Jmat 1 :=
  ⟨by rw [Matrix.conjTranspose_one, Matrix.one_mul],
   (make_symplectic_spec 1 1 1 (fun _ => 0)
      (by rw [Matrix.conjTranspose_one, Matrix.one_mul])
      (by rw [Matrix.conjTranspose_one, Matrix.one_mul])).2⟩

/-! ## Gaussian-to-generating-function mapper
(`TFCircuitBackend.sigma_Q` and `TFCircuitBackend._Sigma_mu_C`,
tfbackend.py lines 65-81) -/

/-- `TFCircuitBackend.sigma_Q`: `sigma = (1/hbar)·R·cov·Rᴴ; sigma + 0.5·I`.
The rotation matrix `R` (`utils.rotmat`, not under src/ and not pinned down
by the spec beyond "the fixed mode-interleaving-to-block rotation matrix")
is taken as a parameter. -/
noncomputable def sigma_Q {n : ℕ} (R : Matrix (Fin n ⊕ Fin n) (Fin n ⊕ Fin n) ℂ)
    (cov : Matrix (Fin n ⊕ Fin n) (Fin n ⊕ Fin n) ℝ) (hbar : ℝ) :
    Matrix (Fin n ⊕ Fin n) (Fin n ⊕ Fin n) ℂ :=
  (1 / (hbar : ℂ)) • (R * cov.map Complex.ofReal * Rᴴ) + (1 / 2 : ℂ) • 1

/-- Modelled from the spec: `utils.Xmat` is not under src/; the spec fixes it
as the fixed symplectic-form permutation matrix swapping the two `N`-blocks. -/
def Xmat (n : ℕ) : Matrix (Fin n ⊕ Fin n) (Fin n ⊕ Fin n) ℂ :=
  Matrix.fromBlocks 0 1 1 0

/-- `_Sigma_mu_C` line 76: `A = Xmat @ (identity - sQinv)`. -/
noncomputable def Amat {n : ℕ} (R : Matrix (Fin n ⊕ Fin n) (Fin n ⊕ Fin n) ℂ)
    (cov : Matrix (Fin n ⊕ Fin n) (Fin n ⊕ Fin n) ℝ) (hbar : ℝ) :
    Matrix (Fin n ⊕ Fin n) (Fin n ⊕ Fin n) ℂ :=
  Xmat n * (1 - (sigma_Q R cov hbar)⁻¹)

/-- `_Sigma_mu_C` line 77: `alpha = complex(means[:N], means[N:]) / sqrt(2·hbar)`. -/
noncomputable def alphaVec {n : ℕ} (means : Fin n ⊕ Fin n → ℝ) (hbar : ℝ) :
    Fin n → ℂ :=
  fun i => ((means (Sum.inl i) : ℂ) + (means (Sum.inr i) : ℂ) * Complex.I)
    / (Real.sqrt (2 * hbar) : ℂ)

/-- `_Sigma_mu_C` line 78: `beta = concat([alpha, conj(alpha)])`. -/
noncomputable def betaVec {n : ℕ} (means : Fin n ⊕ Fin n → ℝ) (hbar : ℝ) :
    Fin n ⊕ Fin n → ℂ :=
  Sum.elim (alphaVec means hbar) (fun i => star (alphaVec means hbar i))

/-- `_Sigma_mu_C` line 79: `gamma = matvec(transpose(sQinv), conj(beta))`. -/
noncomputable def gammaVec {n : ℕ} (R : Matrix (Fin n ⊕ Fin n) (Fin n ⊕ Fin n) ℂ)
    (cov : Matrix (Fin n ⊕ Fin n) (Fin n ⊕ Fin n) ℝ)
    (means : Fin n ⊕ Fin n → ℝ) (hbar : ℝ) : Fin n ⊕ Fin n → ℂ :=
  (((sigma_Q R cov hbar)⁻¹)ᵀ).mulVec (fun i => star (betaVec means hbar i))

/-- `_Sigma_mu_C` line 80:
`T = exp(-0.5·einsum('i,ij,j', beta, sQinv, conj(beta))) / sqrt(det(sQ))`;
`csqrt` stands for the principal complex square root `tf.math.sqrt`. -/
noncomputable def Tval {n : ℕ} (csqrt : ℂ → ℂ)
    (R : Matrix (Fin n ⊕ Fin n) (Fin n ⊕ Fin n) ℂ)
    (cov : Matrix (Fin n ⊕ Fin n) (Fin n ⊕ Fin n) ℝ)
    (means : Fin n ⊕ Fin n → ℝ) (hbar : ℝ) : ℂ :=
  Complex.exp (-(1 / 2 : ℂ)
      * ∑ i, ∑ j, betaVec means hbar i * (sigma_Q R cov hbar)⁻¹ i j
          * star (betaVec means hbar j))
    / csqrt (sigma_Q R cov hbar).det

/-- `_Sigma_mu_C` line 81 with `mixed = False`: return
`(-A[:N,:N], gamma[:N], T**(0.5 + 0.5·0))` with `N = num_modes`;
`cpow` stands for the principal complex power `T ** x`. -/
noncomputable def Sigma_mu_C_pure {n : ℕ} (csqrt : ℂ → ℂ) (cpow : ℂ → ℝ → ℂ)
    (R : Matrix (Fin n ⊕ Fin n) (Fin n ⊕ Fin n) ℂ)
    (cov : Matrix (Fin n ⊕ Fin n) (Fin n ⊕ Fin n) ℝ)
    (means : Fin n ⊕ Fin n → ℝ) (hbar : ℝ) :
    Matrix (Fin n) (Fin n) ℂ × (Fin n → ℂ) × ℂ :=
  (-((Amat R cov hbar).submatrix Sum.inl Sum.inl),
   fun i => gammaVec R cov means hbar (Sum.inl i),
   cpow (Tval csqrt R cov means hbar) (0.5 + 0.5 * 0))

/-- `_Sigma_mu_C` line 81 with `mixed = True`: return
`(-A, gamma, T**(0.5 + 0.5·1))` on the full `2N` block. -/
noncomputable def Sigma_mu_C_mixed {n : ℕ} (csqrt : ℂ → ℂ) (cpow : ℂ → ℝ → ℂ)
    (R : Matrix (Fin n ⊕ Fin n) (Fin n ⊕ Fin n) ℂ)
    (cov : Matrix (Fin n ⊕ Fin n) (Fin n ⊕ Fin n) ℝ)
    (means : Fin n ⊕ Fin n → ℝ) (hbar : ℝ) :
    Matrix (Fin n ⊕ Fin n) (Fin n ⊕ Fin n) ℂ × (Fin n ⊕ Fin n → ℂ) × ℂ :=
  (-(Amat R cov hbar),
   gammaVec R cov means hbar,
   cpow (Tval csqrt R cov means hbar) (0.5 + 0.5 * 1))

/-- The spec's formula for `sigma_Q`: `R·cov·Rᴴ/hbar + I/2`. -/
noncomputable def sigma_Q_spec {n : ℕ}
    (R : Matrix (Fin n ⊕ Fin n) (Fin n ⊕ Fin n) ℂ)
    (cov : Matrix (Fin n ⊕ Fin n) (Fin n ⊕ Fin n) ℝ) (hbar : ℝ) :
    Matrix (Fin n ⊕ Fin n) (Fin n ⊕ Fin n) ℂ :=
  ((hbar : ℂ))⁻¹ • (R * cov.map Complex.ofReal * Rᴴ) + ((2 : ℂ))⁻¹ • 1

/-- The spec's formula `A_full = X·(I − sigma_Q⁻¹)`. -/
noncomputable def A_full_spec {n : ℕ}
    (R : Matrix (Fin n ⊕ Fin n) (Fin n ⊕ Fin n) ℂ)
    (cov : Matrix (Fin n ⊕ Fin n) (Fin n ⊕ Fin n) ℝ) (hbar : ℝ) :
    Matrix (Fin n ⊕ Fin n) (Fin n ⊕ Fin n) ℂ :=
  Xmat n * (1 - (sigma_Q_spec R cov hbar)⁻¹)

/-- The spec's formula `gamma = sigma_Q⁻ᵗ·conj(beta)`, reading `⁻ᵗ` as the
inverse of the transpose. -/
noncomputable def gamma_spec {n : ℕ}
    (R : Matrix (Fin n ⊕ Fin n) (Fin n ⊕ Fin n) ℂ)
    (cov : Matrix (Fin n ⊕ Fin n) (Fin n ⊕ Fin n) ℝ)
    (means : Fin n ⊕ Fin n → ℝ) (hbar : ℝ) : Fin n ⊕ Fin n → ℂ :=
  (((sigma_Q_spec R cov hbar)ᵀ)⁻¹).mulVec (fun i => star (betaVec means hbar i))

/-- The spec's formula `T = exp(−½·betaᵗ·sigma_Q⁻¹·conj(beta)) / sqrt(det)`,
with the quadratic form written as a dot product. -/
noncomputable def T_spec {n : ℕ} (csqrt : ℂ → ℂ)
    (R : Matrix (Fin n ⊕ Fin n) (Fin n ⊕ Fin n) ℂ)
    (cov : Matrix (Fin n ⊕ Fin n) (Fin n ⊕ Fin n) ℝ)
    (means : Fin n ⊕ Fin n → ℝ) (hbar : ℝ) : ℂ :=
  Complex.exp (-(1 / 2 : ℂ)
      * Matrix.dotProduct (betaVec means hbar)
          ((sigma_Q_spec R cov hbar)⁻¹.mulVec (fun i => star (betaVec means hbar i))))
    / csqrt (sigma_Q_spec R cov hbar).det

theorem sigma_Q_eq_spec {n : ℕ} (R : Matrix (Fin n ⊕ Fin n) (Fin n ⊕ Fin n) ℂ)
    (cov : Matrix (Fin n ⊕ Fin n) (Fin n ⊕ Fin n) ℝ) (hbar : ℝ) :
    sigma_Q R cov hbar = sigma_Q_spec R cov hbar := by
  rw [sigma_Q, sigma_Q_spec, one_div]
  norm_num

theorem gamma_eq_spec {n : ℕ} (R : Matrix (Fin n ⊕ Fin n) (Fin n ⊕ Fin n) ℂ)
    (cov : Matrix (Fin n ⊕ Fin n) (Fin n ⊕ Fin n) ℝ)
    (means : Fin n ⊕ Fin n → ℝ) (hbar : ℝ) :
    gammaVec R cov means hbar = gamma_spec R cov means hbar := by
  rw [gammaVec, gamma_spec, sigma_Q_eq_spec, Matrix.transpose_nonsing_inv]

theorem T_eq_spec {n : ℕ} (csqrt : ℂ → ℂ)
    (R : Matrix (Fin n ⊕ Fin n) (Fin n ⊕ Fin n) ℂ)
    (cov : Matrix (Fin n ⊕ Fin n) (Fin n ⊕ Fin n) ℝ)
    (means : Fin n ⊕ Fin n → ℝ) (hbar : ℝ) :
    Tval csqrt R cov means hbar = T_spec csqrt R cov means hbar := by
  rw [Tval, T_spec, sigma_Q_eq_spec]
  congr 2
  congr 1
  apply Finset.sum_congr rfl
  intro i _
  simp only [Matrix.mulVec, Matrix.dotProduct]
  rw [Finset.mul_sum]
  apply Finset.sum_congr rfl
  intro j _
  ring

/-- C2. `_Sigma_mu_C` returns exactly the spec's triple
`(−A_truncated, gamma_truncated, C)`: `A_full = X·(I − sigma_Q⁻¹)` with
`sigma_Q = R·cov·Rᴴ/hbar + I/2`, `gamma = sigma_Q⁻ᵗ·conj(beta)` with
`beta = concat(alpha, conj(alpha))`, `C = T^(0.5+0.5·mixed)` with
`T = exp(−½·betaᵗ·sigma_Q⁻¹·conj(beta))/sqrt(det sigma_Q)`, truncated to the
first `N` block when pure and kept whole when mixed. -/
theorem Sigma_mu_C_matches_spec :
    ∀ (n : ℕ) (csqrt : ℂ → ℂ) (cpow : ℂ → ℝ → ℂ)
      (R : Matrix (Fin n ⊕ Fin n) (Fin n ⊕ Fin n) ℂ)
      (cov : Matrix (Fin n ⊕ Fin n) (Fin n ⊕ Fin n) ℝ)
      (means : Fin n ⊕ Fin n → ℝ) (hbar : ℝ),
      cov.IsSymm → 0 < hbar →
      Sigma_mu_C_pure csqrt cpow R cov means hbar
        = (-((A_full_spec R cov hbar).submatrix Sum.inl Sum.inl),
           fun i => gamma_spec R cov means hbar (Sum.inl i),
           cpow (T_spec csqrt R cov means hbar) (0.5 + 0.5 * 0)) ∧
      Sigma_mu_C_mixed csqrt cpow R cov means hbar
        = (-(A_full_spec R cov hbar),
           gamma_spec R cov means hbar,
           cpow (T_spec csqrt R cov means hbar) (0.5 + 0.5 * 1)) := by
  intro n csqrt cpow R cov means hbar hsymm hhbar
  have hA : Amat R cov hbar = A_full_spec R cov hbar := by
    rw [Amat, A_full_spec, sigma_Q_eq_spec]
  constructor
  · rw [Sigma_mu_C_pure, hA, gamma_eq_spec, T_eq_spec]
  · rw [Sigma_mu_C_mixed, hA, gamma_eq_spec, T_eq_spec]

/-- Witness for C2 at `n = 1`, `R = 1`, `cov = 1`, `means = 0`, `hbar = 1`. -/
theorem Sigma_mu_C_matches_spec_witness :
    ((1 : Matrix (Fin 1 ⊕ Fin 1) (Fin 1 ⊕ Fin 1) ℝ).IsSymm ∧ (0 : ℝ) < 1) ∧
    Sigma_mu_C_pure (fun z => z) (fun z _ => z) (1 : Matrix (Fin 1 ⊕ Fin 1) (Fin 1 ⊕ Fin 1) ℂ)
        (1 : Matrix (Fin 1 ⊕ Fin 1) (Fin 1 ⊕ Fin 1) ℝ) (fun _ => 0) 1
      = (-((A_full_spec (1 : Matrix (Fin 1 ⊕ Fin 1) (Fin 1 ⊕ Fin 1) ℂ)
              (1 : Matrix (Fin 1 ⊕ Fin 1) (Fin 1 ⊕ Fin 1) ℝ) 1).submatrix Sum.inl Sum.inl),
         fun i => gamma_spec (1 : Matrix (Fin 1 ⊕ Fin 1) (Fin 1 ⊕ Fin 1) ℂ)
             (1 : Matrix (Fin 1 ⊕ Fin 1) (Fin 1 ⊕ Fin 1) ℝ)
             (fun _ : Fin 1 ⊕ Fin 1 => (0 : ℝ)) 1 (Sum.inl i),
         (fun (z : ℂ) (_ : ℝ) => z)
           (T_spec (fun z => z) (1 : Matrix (Fin 1 ⊕ Fin 1) (Fin 1 ⊕ Fin 1) ℂ)
             (1 : Matrix (Fin 1 ⊕ Fin 1) (Fin 1 ⊕ Fin 1) ℝ)
             (fun _ : Fin 1 ⊕ Fin 1 => (0 : ℝ)) 1) (0.5 + 0.5 * 0)) :=
  ⟨⟨Matrix.isSymm_one, by norm_num⟩,
   (Sigma_mu_C_matches_spec 1 (fun z => z) (fun z _ => z) 1 1 (fun _ => 0) 1
      Matrix.isSymm_one (by norm_num)).1⟩

end MrMustard
